import Mathlib

/-!
Shallow embedding of the pdfmind PDF processing pipeline
(src/pdfmind/processor.py) together with proofs of its specified
properties.  Text is modelled as a list of characters; a raised Python
exception is modelled as a none or Except.error result.
-/

namespace Pdfmind

/-- Text is modelled as a list of characters. -/
abbrev Str := List Char

/-- Characters removed by the Python str.strip method (ASCII whitespace). -/
def pyIsSpace (c : Char) : Bool :=
  c = ' ' || c = '\t' || c = '\n' || c = '\r' || c = '\x0b' || c = '\x0c'

/-- Remove trailing whitespace characters. -/
def dropTrailing : Str → Str
  | [] => []
  | c :: rest =>
    if dropTrailing rest = [] && pyIsSpace c then [] else c :: dropTrailing rest

/-- Python text.strip: remove leading and trailing whitespace. -/
def pyStrip (s : Str) : Str := dropTrailing (s.dropWhile pyIsSpace)

/-- The Python slice s[-k:] used for the overlap text: for k = 0 it is the
whole string (since -0 is 0), otherwise the trailing k characters, clamped
to the whole string when k exceeds the length. -/
def pySliceNegFrom (s : Str) (k : Nat) : Str :=
  if k = 0 then s else s.drop (s.length - k)

/-- The trailing k characters of a string in the plain reading of the spec:
empty when k = 0, the whole string when k is at least the length. -/
def tailChars (s : Str) (k : Nat) : Str := s.drop (s.length - k)

/-- True when the list starts with a sentence-ending punctuation character,
mirroring the lookbehind class [.!?] of the splitting regular expression. -/
def headIsPunct : Str → Bool
  | [] => false
  | c :: _ => c = '.' || c = '!' || c = '?'

/-- Scanner implementing re.split on the sentence boundary pattern: a split
point is a maximal run of spaces directly after one of . ! ?.  Here acc is
the current segment reversed, out holds the emitted segments reversed, and
skipping records that we are inside a matched run of spaces. -/
def sentAux : Str → Str → List Str → Bool → List Str
  | [], acc, out, _ => (acc.reverse :: out).reverse
  | c :: rest, acc, out, skipping =>
    if skipping && c = ' ' then sentAux rest acc out true
    else if c = ' ' && headIsPunct acc then
      sentAux rest [] (acc.reverse :: out) true
    else sentAux rest (c :: acc) out false

/-- The sentence split used by split_text_smart. -/
def splitSentences (text : Str) : List Str := sentAux text [] [] false

/-- The trimmed fixed-width slices sentence[i:i+chunk_size].strip() for i in
range(0, len(sentence), chunk_size), driven by a fuel argument; accurate
whenever the fuel covers the length of the string and chunk_size is
positive. -/
def fixedSlicesF : Nat → Str → Nat → List Str
  | _, [], _ => []
  | 0, _ :: _, _ => []
  | fuel + 1, c :: rest, chunk_size =>
      pyStrip ((c :: rest).take chunk_size) ::
        fixedSlicesF fuel ((c :: rest).drop chunk_size) chunk_size

/-- The trimmed fixed-width slices of a sentence. -/
def fixedSlices (s : Str) (chunk_size : Nat) : List Str :=
  fixedSlicesF s.length s chunk_size

/-- range(0, len(sentence), chunk_size) raises ValueError when the step
chunk_size is zero; otherwise the list of trimmed fixed-width slices. -/
def pyFixedSlices (sentence : Str) (chunk_size : Nat) : Option (List Str) :=
  if chunk_size = 0 then none else some (fixedSlices sentence chunk_size)

/-- One iteration of the greedy packing loop of split_text_smart: either the
sentence is appended to current_chunk, or current_chunk is flushed and the
sentence is sliced or becomes the new current_chunk. -/
def packSentence (chunk_size : Nat) (initial_chunks : List Str)
    (current_chunk sentence : Str) : Option (List Str × Str) :=
  let estimated_length := current_chunk.length + sentence.length + 1
  if estimated_length ≤ chunk_size then
    some (initial_chunks,
      current_chunk ++ (if current_chunk = [] then [] else [' ']) ++ sentence)
  else
    let flushed := if current_chunk = [] then initial_chunks
      else initial_chunks ++ [pyStrip current_chunk]
    if chunk_size < sentence.length then
      (pyFixedSlices sentence chunk_size).map (fun slices => (flushed ++ slices, []))
    else
      some (flushed, sentence)

/-- The initial, pre-stitch chunk list of split_text_smart: the greedy
packing loop over the sentences followed by the final flush of
current_chunk. -/
def initialChunks (text : Str) (chunk_size : Nat) : Option (List Str) :=
  ((splitSentences (pyStrip text)).foldlM
      (fun st sentence => packSentence chunk_size st.1 st.2 sentence) ([], [])).map
    (fun st => if st.2 = [] then st.1 else st.1 ++ [pyStrip st.2])

/-- The overlap stitching of one chunk at index i > 0 against the initial
chunk just before it. -/
def stitchChunk (overlap : Nat) (prev chunk : Str) : Str :=
  let overlap_text := pyStrip (pySliceNegFrom prev overlap)
  if overlap_text.isPrefixOf chunk then pyStrip chunk
  else pyStrip (overlap_text ++ [' '] ++ chunk)

def addOverlapsAux (overlap : Nat) : Str → List Str → List Str
  | _, [] => []
  | prev, chunk :: rest =>
      stitchChunk overlap prev chunk :: addOverlapsAux overlap chunk rest

/-- The overlap stitching pass over the initial chunk list; the chunk at
index 0 is only trimmed. -/
def addOverlaps (overlap : Nat) : List Str → List Str
  | [] => []
  | chunk :: rest => pyStrip chunk :: addOverlapsAux overlap chunk rest

/-- PDFProcessor.split_text_smart.  The result none models a raised
exception; the argument none models passing Python None as the text. -/
def split_text_smart (text : Option Str) (chunk_size overlap : Nat) :
    Option (List Str) :=
  match text with
  | none => some []
  | some t =>
    if t = [] then some []
    else (initialChunks t chunk_size).map (addOverlaps overlap)

/-- PDFProcessor.extract_text over the list of page texts. -/
def extract_text (pages : List Str) : Str :=
  pages.foldl (fun acc page => acc ++ page ++ ['\n']) []

/-- The stage sequence inside the try block of
process_pdf_and_store_in_chroma: construct the processor, generate the
embeddings, obtain the collection, upsert; each stage may raise. -/
def runPipeline {P E C U Err : Type} (mk : Except Err P) (gen : P → Except Err E)
    (coll : Except Err C) (ups : C → E → P → Except Err U) :
    Except Err (P × C) :=
  match mk with
  | .error e => .error e
  | .ok p =>
    match gen p with
    | .error e => .error e
    | .ok emb =>
      match coll with
      | .error e => .error e
      | .ok c =>
        match ups c emb p with
        | .error e => .error e
        | .ok _ => .ok (p, c)

/-- process_pdf_and_store_in_chroma: the try/except wrapper that turns any
stage failure into the result (None, None). -/
def process_pdf_and_store_in_chroma {P E C U Err : Type} (mk : Except Err P)
    (gen : P → Except Err E) (coll : Except Err C)
    (ups : C → E → P → Except Err U) : Option P × Option C :=
  match runPipeline mk gen coll ups with
  | .ok (p, c) => (some p, some c)
  | .error _ => (none, none)

/-! ### Helper lemmas about trimming -/

theorem dropTrailing_idem (l : Str) : dropTrailing (dropTrailing l) = dropTrailing l := by
  induction l with
  | nil => rfl
  | cons c rest ih =>
    rw [dropTrailing]
    split
    · rfl
    · rename_i hcond
      rw [dropTrailing, ih]
      split
      · rename_i hcond2
        exact absurd hcond2 hcond
      · rfl

theorem dropTrailing_head? (l : Str) :
    dropTrailing l = [] ∨ (dropTrailing l).head? = l.head? := by
  cases l with
  | nil => exact Or.inl rfl
  | cons c rest =>
    rw [dropTrailing]
    split
    · exact Or.inl rfl
    · exact Or.inr rfl

theorem dropWhile_eq_self_of_head (p : Char → Bool) (l : Str)
    (h : ∀ x, l.head? = some x → p x = false) : l.dropWhile p = l := by
  cases l with
  | nil => rfl
  | cons c rest =>
    rw [List.dropWhile_cons, h c rfl]
    simp

theorem head?_dropWhile_false (p : Char → Bool) :
    ∀ (l : Str) (x : Char), (l.dropWhile p).head? = some x → p x = false := by
  intro l
  induction l with
  | nil => intro x hx; simp [List.dropWhile] at hx
  | cons c rest ih =>
    intro x hx
    rw [List.dropWhile_cons] at hx
    by_cases hc : p c = true
    · rw [if_pos hc] at hx
      exact ih x hx
    · rw [if_neg hc] at hx
      simp at hx
      rw [← hx]
      exact Bool.not_eq_true _ |>.mp hc

theorem pyStrip_idem (s : Str) : pyStrip (pyStrip s) = pyStrip s := by
  unfold pyStrip
  have h1 : (dropTrailing (s.dropWhile pyIsSpace)).dropWhile pyIsSpace
      = dropTrailing (s.dropWhile pyIsSpace) := by
    apply dropWhile_eq_self_of_head
    intro x hx
    rcases dropTrailing_head? (s.dropWhile pyIsSpace) with h | h
    · rw [h] at hx
      simp at hx
    · rw [h] at hx
      exact head?_dropWhile_false pyIsSpace s x hx
  rw [h1, dropTrailing_idem]

/-! ### Helper lemmas about slicing and packing -/

theorem fixedSlicesF_mem :
    ∀ (f : Nat) (s : Str) (cs : Nat) (c : Str),
      c ∈ fixedSlicesF f s cs → ∃ x, c = pyStrip x := by
  intro f
  induction f with
  | zero =>
    intro s cs c hc
    cases s <;> simp [fixedSlicesF] at hc
  | succ f ih =>
    intro s cs c hc
    cases s with
    | nil => simp [fixedSlicesF] at hc
    | cons a rest =>
      rw [fixedSlicesF] at hc
      rcases List.mem_cons.mp hc with h | h
      · exact ⟨_, h⟩
      · exact ih _ _ _ h

theorem fixedSlices_mem (s : Str) (cs : Nat) (c : Str)
    (hc : c ∈ fixedSlices s cs) : ∃ x, c = pyStrip x :=
  fixedSlicesF_mem s.length s cs c hc

theorem fixedSlicesF_fuel :
    ∀ (f f2 : Nat) (s : Str) (cs : Nat), 0 < cs → s.length ≤ f → s.length ≤ f2 →
      fixedSlicesF f s cs = fixedSlicesF f2 s cs := by
  intro f
  induction f with
  | zero =>
    intro f2 s cs hcs hf hf2
    cases s with
    | nil => cases f2 <;> rfl
    | cons a rest => simp at hf
  | succ f ih =>
    intro f2 s cs hcs hf hf2
    cases s with
    | nil => cases f2 <;> rfl
    | cons a rest =>
      cases f2 with
      | zero => simp at hf2
      | succ f2 =>
        rw [fixedSlicesF, fixedSlicesF]
        simp only [List.length_cons] at hf hf2
        have hlen : ((a :: rest).drop cs).length ≤ f := by
          simp only [List.length_drop, List.length_cons]
          omega
        have hlen2 : ((a :: rest).drop cs).length ≤ f2 := by
          simp only [List.length_drop, List.length_cons]
          omega
        rw [ih f2 _ cs hcs hlen hlen2]

theorem fixedSlices_cons (s : Str) (cs : Nat) (hcs : 0 < cs) (hs : s ≠ []) :
    fixedSlices s cs = pyStrip (s.take cs) :: fixedSlices (s.drop cs) cs := by
  cases s with
  | nil => exact absurd rfl hs
  | cons a rest =>
    unfold fixedSlices
    rw [List.length_cons, fixedSlicesF]
    have hlen : ((a :: rest).drop cs).length ≤ rest.length := by
      simp only [List.length_drop, List.length_cons]
      omega
    rw [fixedSlicesF_fuel rest.length ((a :: rest).drop cs).length _ cs hcs hlen le_rfl]

theorem packSentence_stripped (cs : Nat) (ic : List Str) (cur s : Str)
    (ic2 : List Str) (cur2 : Str)
    (hinv : ∀ c ∈ ic, pyStrip c = c)
    (h : packSentence cs ic cur s = some (ic2, cur2)) :
    ∀ c ∈ ic2, pyStrip c = c := by
  have hflush : ∀ c ∈ (if cur = [] then ic else ic ++ [pyStrip cur]), pyStrip c = c := by
    split
    · exact hinv
    · intro c hc
      rcases List.mem_append.mp hc with h1 | h1
      · exact hinv c h1
      · simp at h1
        rw [h1]
        exact pyStrip_idem cur
  unfold packSentence pyFixedSlices at h
  by_cases h1 : cur.length + s.length + 1 ≤ cs
  · rw [if_pos h1] at h
    simp only [Option.some.injEq, Prod.mk.injEq] at h
    rw [← h.1]
    exact hinv
  · rw [if_neg h1] at h
    by_cases h2 : cs < s.length
    · rw [if_pos h2] at h
      by_cases h3 : cs = 0
      · rw [if_pos h3] at h
        simp at h
      · rw [if_neg h3] at h
        simp only [Option.map_some', Option.some.injEq, Prod.mk.injEq] at h
        intro c hc
        rw [← h.1] at hc
        rcases List.mem_append.mp hc with hm | hm
        · exact hflush c hm
        · rcases fixedSlices_mem s cs c hm with ⟨x, hx⟩
          rw [hx]
          exact pyStrip_idem x
    · rw [if_neg h2] at h
      simp only [Option.some.injEq, Prod.mk.injEq] at h
      rw [← h.1]
      exact hflush

theorem foldlM_pack_stripped (cs : Nat) :
    ∀ (sents : List Str) (ic : List Str) (cur : Str) (st2 : List Str × Str),
      (∀ c ∈ ic, pyStrip c = c) →
      List.foldlM (fun st sentence => packSentence cs st.1 st.2 sentence) (ic, cur) sents
        = some st2 →
      ∀ c ∈ st2.1, pyStrip c = c := by
  intro sents
  induction sents with
  | nil =>
    intro ic cur st2 hinv h
    simp [List.foldlM] at h
    rw [← h]
    exact hinv
  | cons s ss ih =>
    intro ic cur st2 hinv h
    rw [List.foldlM_cons] at h
    cases hp : packSentence cs ic cur s with
    | none =>
      rw [hp] at h
      simp at h
    | some st1 =>
      rw [hp] at h
      simp only [Option.bind_eq_bind, Option.some_bind] at h
      exact ih st1.1 st1.2 st2 (packSentence_stripped cs ic cur s st1.1 st1.2 hinv hp) h

theorem initialChunks_stripped (text : Str) (cs : Nat) (init : List Str)
    (h : initialChunks text cs = some init) : ∀ c ∈ init, pyStrip c = c := by
  unfold initialChunks at h
  cases hf : (splitSentences (pyStrip text)).foldlM
      (fun st sentence => packSentence cs st.1 st.2 sentence) ([], []) with
  | none =>
    rw [hf] at h
    simp at h
  | some st =>
    rw [hf] at h
    simp only [Option.map_some', Option.some.injEq] at h
    intro c hc
    rw [← h] at hc
    have hbase : ∀ c ∈ ([] : List Str), pyStrip c = c := by simp
    split at hc
    · exact foldlM_pack_stripped cs _ [] [] st hbase hf c hc
    · rcases List.mem_append.mp hc with h1 | h1
      · exact foldlM_pack_stripped cs _ [] [] st hbase hf c h1
      · simp at h1
        rw [h1]
        exact pyStrip_idem st.2

/-! ### Helper lemmas about the stitching pass -/

theorem addOverlapsAux_length (ov : Nat) :
    ∀ (l : List Str) (prev : Str), (addOverlapsAux ov prev l).length = l.length := by
  intro l
  induction l with
  | nil => intro prev; rfl
  | cons x xs ih =>
    intro prev
    rw [addOverlapsAux, List.length_cons, List.length_cons, ih x]

theorem addOverlaps_length (ov : Nat) (l : List Str) :
    (addOverlaps ov l).length = l.length := by
  cases l with
  | nil => rfl
  | cons x xs => rw [addOverlaps, List.length_cons, List.length_cons, addOverlapsAux_length]

theorem addOverlapsAux_get? (ov : Nat) :
    ∀ (l : List Str) (prev : Str) (j : Nat) (pc c : Str),
      (prev :: l).get? j = some pc → l.get? j = some c →
      (addOverlapsAux ov prev l).get? j = some (stitchChunk ov pc c) := by
  intro l
  induction l with
  | nil =>
    intro prev j pc c h1 h2
    simp at h2
  | cons x xs ih =>
    intro prev j pc c h1 h2
    cases j with
    | zero =>
      simp only [List.get?_cons_zero, Option.some.injEq] at h1 h2
      rw [addOverlapsAux, List.get?_cons_zero, h1, h2]
    | succ k =>
      rw [List.get?_cons_succ] at h1 h2
      rw [addOverlapsAux, List.get?_cons_succ]
      exact ih x k pc c h1 h2

theorem stitchChunk_eq (ov : Nat) (prev c : Str) :
    stitchChunk ov prev c =
      if (pyStrip (pySliceNegFrom prev ov)).isPrefixOf c then pyStrip c
      else pyStrip (pyStrip (pySliceNegFrom prev ov) ++ [' '] ++ c) := rfl

theorem addOverlapsAux_mem (ov : Nat) :
    ∀ (l : List Str) (prev c : Str),
      c ∈ addOverlapsAux ov prev l → ∃ x, c = pyStrip x := by
  intro l
  induction l with
  | nil => intro prev c hc; simp [addOverlapsAux] at hc
  | cons x xs ih =>
    intro prev c hc
    rw [addOverlapsAux] at hc
    rcases List.mem_cons.mp hc with h | h
    · have hst : ∃ x0, stitchChunk ov prev x = pyStrip x0 := by
        rw [stitchChunk_eq]
        split
        · exact ⟨x, rfl⟩
        · exact ⟨_, rfl⟩
      rcases hst with ⟨x0, e⟩
      exact ⟨x0, h.trans e⟩
    · exact ih x c h

theorem pySliceNegFrom_pos (s : Str) (k : Nat) (h : 1 ≤ k) :
    pySliceNegFrom s k = tailChars s k := by
  unfold pySliceNegFrom tailChars
  rw [if_neg (by omega)]

/-! ### Helper lemmas about the sentence scanner -/

theorem sentAux_out :
    ∀ (cs acc : Str) (out : List Str) (sk : Bool),
      sentAux cs acc out sk = out.reverse ++ sentAux cs acc [] sk := by
  intro cs
  induction cs with
  | nil =>
    intro acc out sk
    rw [sentAux, sentAux]
    simp
  | cons c rest ih =>
    intro acc out sk
    rw [sentAux, sentAux]
    by_cases h1 : (sk && c = ' ') = true
    · rw [if_pos h1, if_pos h1]
      exact ih acc out true
    · rw [if_neg h1, if_neg h1]
      by_cases h2 : (c = ' ' && headIsPunct acc) = true
      · rw [if_pos h2, if_pos h2]
        rw [ih [] (acc.reverse :: out) true, ih [] [acc.reverse] true]
        simp
      · rw [if_neg h2, if_neg h2]
        exact ih (c :: acc) out false

theorem sentAux_head_ne :
    ∀ (cs acc : Str) (sk : Bool), acc ≠ [] →
      ∃ a as, sentAux cs acc [] sk = a :: as ∧ a ≠ [] := by
  intro cs
  induction cs with
  | nil =>
    intro acc sk hacc
    refine ⟨acc.reverse, [], rfl, ?_⟩
    simp [hacc]
  | cons c rest ih =>
    intro acc sk hacc
    rw [sentAux]
    by_cases h1 : (sk && c = ' ') = true
    · rw [if_pos h1]
      exact ih acc true hacc
    · rw [if_neg h1]
      by_cases h2 : (c = ' ' && headIsPunct acc) = true
      · rw [if_pos h2]
        rw [sentAux_out rest [] [acc.reverse] true]
        refine ⟨acc.reverse, sentAux rest [] [] true, ?_, ?_⟩
        · simp
        · simp [hacc]
      · rw [if_neg h2]
        exact ih (c :: acc) false (by simp)

theorem splitSentences_head_ne (u : Str) (hu : u ≠ []) :
    ∃ a as, splitSentences u = a :: as ∧ a ≠ [] := by
  cases u with
  | nil => exact absurd rfl hu
  | cons c rest =>
    unfold splitSentences
    rw [sentAux]
    rw [if_neg (by simp), if_neg (by simp [headIsPunct])]
    exact sentAux_head_ne rest [c] false (by simp)

/-! ### Helper lemmas about split_text_smart as a whole -/

theorem pySliceNegFrom_zero (s : Str) : pySliceNegFrom s 0 = s := by
  unfold pySliceNegFrom
  rw [if_pos rfl]

theorem initialChunks_nil (cs : Nat) : initialChunks [] cs = some [] := by
  cases cs with
  | zero => decide
  | succ n =>
    unfold initialChunks
    have h0 : splitSentences (pyStrip []) = [([] : Str)] := rfl
    have h1 : packSentence (n + 1) [] [] [] = some ([], []) := by
      simp only [packSentence]
      rw [if_pos (by simp)]
      rfl
    rw [h0]
    simp only [List.foldlM_cons, List.foldlM_nil]
    simp [h1]

theorem packSentence_zero_none (ic : List Str) (cur s : Str) (hs : s ≠ []) :
    packSentence 0 ic cur s = none := by
  simp only [packSentence, pyFixedSlices]
  rw [if_neg (by omega), if_pos (List.length_pos.mpr hs)]
  simp

theorem split_stitch_general (cs ov : Nat) (text : Str) (init out : List Str)
    (hinit : initialChunks text cs = some init)
    (hout : split_text_smart (some text) cs ov = some out) :
    out.length = init.length ∧
    out.get? 0 = init.get? 0 ∧
    ∀ (j : Nat) (pc c : Str), init.get? j = some pc → init.get? (j + 1) = some c →
      out.get? (j + 1) = some
        (if (pyStrip (pySliceNegFrom pc ov)).isPrefixOf c then c
         else pyStrip (pyStrip (pySliceNegFrom pc ov) ++ [' '] ++ c)) := by
  have hstr := initialChunks_stripped text cs init hinit
  by_cases ht : text = []
  · subst ht
    rw [initialChunks_nil] at hinit
    have hinit2 : init = [] := by
      injection hinit with h2
      exact h2.symm
    simp only [split_text_smart, if_true] at hout
    have hout2 : out = [] := by
      injection hout with h2
      exact h2.symm
    subst hinit2
    subst hout2
    refine ⟨rfl, rfl, ?_⟩
    intro j pc c h1 h2
    simp at h1
  · simp only [split_text_smart] at hout
    rw [if_neg ht, hinit] at hout
    simp only [Option.map_some', Option.some.injEq] at hout
    have hout2 : out = addOverlaps ov init := hout.symm
    subst hout2
    refine ⟨addOverlaps_length ov init, ?_, ?_⟩
    · cases init with
      | nil => rfl
      | cons x xs =>
        rw [addOverlaps]
        simp only [List.get?_cons_zero]
        rw [hstr x (List.mem_cons_self x xs)]
    · intro j pc c h1 h2
      cases init with
      | nil => simp at h1
      | cons x xs =>
        rw [addOverlaps, List.get?_cons_succ]
        rw [List.get?_cons_succ] at h2
        have hme := addOverlapsAux_get? ov xs x j pc c h1 h2
        rw [hme]
        congr 1
        rw [stitchChunk_eq]
        have hcm : c ∈ x :: xs := List.mem_cons_of_mem x (List.get?_mem h2)
        have hc : pyStrip c = c := hstr c hcm
        rw [hc]

/-! ### Claim theorems -/

/-- C1, counterexample to the claim as stated: at overlap = 0 the trailing 0
characters of the previous initial chunk trim to the empty string, which is
a prefix of every chunk, so the claim predicts that the chunk at index 1 is
unchanged (and equal to its own trim); the code instead prepends the whole
previous initial chunk, because the Python slice [-0:] is the whole
string. -/
theorem overlap_stitching_zero_cex :
    initialChunks "Hello world. This is a test.".toList 15 =
      some ["Hello world.".toList, "This is a test.".toList] ∧
    pyStrip (tailChars "Hello world.".toList 0) = [] ∧
    ([] : Str).isPrefixOf "This is a test.".toList = true ∧
    pyStrip "This is a test.".toList = "This is a test.".toList ∧
    split_text_smart (some "Hello world. This is a test.".toList) 15 0 =
      some ["Hello world.".toList, "Hello world. This is a test.".toList] ∧
    "Hello world. This is a test.".toList ≠ "This is a test.".toList := by
  decide

/-- C1, amended to overlap at least 1: in the output of split_text_smart,
the chunk at index 0 equals the initial chunk at index 0, and every chunk at
index j + 1 is the initial chunk at j + 1 with the trimmed trailing overlap
characters of the initial chunk at j prepended followed by a single space,
unless the chunk already starts with that overlap text (then it is
unchanged); each output chunk is trimmed at the end. -/
theorem overlap_stitching_from_initial (cs ov : Nat) (hov : 1 ≤ ov) (text : Str)
    (init out : List Str)
    (hinit : initialChunks text cs = some init)
    (hout : split_text_smart (some text) cs ov = some out) :
    out.length = init.length ∧
    out.get? 0 = init.get? 0 ∧
    ∀ (j : Nat) (pc c : Str), init.get? j = some pc → init.get? (j + 1) = some c →
      out.get? (j + 1) = some
        (if (pyStrip (tailChars pc ov)).isPrefixOf c then c
         else pyStrip (pyStrip (tailChars pc ov) ++ [' '] ++ c)) := by
  have h := split_stitch_general cs ov text init out hinit hout
  refine ⟨h.1, h.2.1, ?_⟩
  intro j pc c h1 h2
  have h3 := h.2.2 j pc c h1 h2
  rw [pySliceNegFrom_pos pc ov hov] at h3
  exact h3

theorem overlap_stitching_from_initial_witness :
    (["Hello world.".toList, "orld. This is a test.".toList] : List Str).get? (0 + 1) =
      some
        (if (pyStrip (tailChars "Hello world.".toList 5)).isPrefixOf "This is a test.".toList
         then "This is a test.".toList
         else pyStrip (pyStrip (tailChars "Hello world.".toList 5) ++ [' '] ++
           "This is a test.".toList)) := by
  have h := overlap_stitching_from_initial 15 5 (by decide)
      "Hello world. This is a test.".toList
      ["Hello world.".toList, "This is a test.".toList]
      ["Hello world.".toList, "orld. This is a test.".toList]
      (by decide) (by decide)
  exact h.2.2 0 "Hello world.".toList "This is a test.".toList (by decide) (by decide)

/-- C2: when a sentence is strictly longer than chunk_size (and hence does
not fit into current_chunk), the packing step flushes the non-empty
current_chunk trimmed, appends the sentence as consecutive fixed-width
slices of length chunk_size (the last slice may be shorter), each slice
trimmed, and resets current_chunk to empty. -/
theorem oversized_sentence_sliced (cs : Nat) (hcs : 0 < cs) (ic : List Str)
    (cur s : Str) (hs : cs < s.length) :
    packSentence cs ic cur s =
      some ((if cur = [] then ic else ic ++ [pyStrip cur]) ++ fixedSlices s cs, []) ∧
    fixedSlices s cs = pyStrip (s.take cs) :: fixedSlices (s.drop cs) cs ∧
    fixedSlices ([] : Str) cs = [] := by
  have hs0 : s ≠ [] := by
    intro e
    rw [e] at hs
    simp at hs
  refine ⟨?_, fixedSlices_cons s cs hcs hs0, rfl⟩
  simp only [packSentence, pyFixedSlices]
  rw [if_neg (show ¬(cur.length + s.length + 1 ≤ cs) by omega), if_pos hs,
    if_neg (show ¬cs = 0 by omega)]
  rfl

theorem oversized_sentence_sliced_witness :
    packSentence 2 [] ['x'] ['a', 'b', 'c'] =
      some ((if (['x'] : Str) = [] then ([] : List Str) else [] ++ [pyStrip ['x']]) ++
        fixedSlices ['a', 'b', 'c'] 2, []) :=
  (oversized_sentence_sliced 2 (by decide) [] ['x'] ['a', 'b', 'c'] (by decide)).1

/-- C3: the packing step extends current_chunk exactly under the test
len(current_chunk) + len(sentence) + 1 <= chunk_size, charging the +1 even
for an empty current_chunk, and then appends the sentence with a single
space separator (no separator when current_chunk was empty); when the test
fails, current_chunk is never extended: it is reset to empty or set to the
bare sentence. -/
theorem greedy_packing_decision (cs : Nat) (ic : List Str) (cur s : Str) :
    (cur.length + s.length + 1 ≤ cs →
      packSentence cs ic cur s =
        some (ic, cur ++ (if cur = [] then [] else [' ']) ++ s)) ∧
    (cs < cur.length + s.length + 1 →
      ∀ st2 : List Str × Str, packSentence cs ic cur s = some st2 →
        st2.2 = [] ∨ st2.2 = s) := by
  constructor
  · intro h
    simp only [packSentence]
    rw [if_pos h]
  · intro h st2 hst
    simp only [packSentence, pyFixedSlices] at hst
    rw [if_neg (by omega)] at hst
    by_cases h2 : cs < s.length
    · rw [if_pos h2] at hst
      by_cases h3 : cs = 0
      · rw [if_pos h3] at hst
        simp at hst
      · rw [if_neg h3] at hst
        simp only [Option.map_some', Option.some.injEq] at hst
        left
        rw [← hst]
    · rw [if_neg h2] at hst
      simp only [Option.some.injEq] at hst
      right
      rw [← hst]

theorem greedy_packing_decision_witness :
    packSentence 5 [] ['a'] ['b', 'c'] =
      some ([], ['a'] ++ (if (['a'] : Str) = [] then ([] : Str) else [' ']) ++ ['b', 'c']) :=
  (greedy_packing_decision 5 [] ['a'] ['b', 'c']).1 (by decide)

/-- C4, counterexample to the claim as stated: with overlap = 0 the function
does not return the initial chunk list unchanged; the Python slice [-0:] is
the whole previous chunk and gets prepended. -/
theorem zero_overlap_noop_cex :
    initialChunks "Hello world. This is a test.".toList 15 =
      some ["Hello world.".toList, "This is a test.".toList] ∧
    split_text_smart (some "Hello world. This is a test.".toList) 15 0 =
      some ["Hello world.".toList, "Hello world. This is a test.".toList] ∧
    (["Hello world.".toList, "Hello world. This is a test.".toList] : List Str) ≠
      ["Hello world.".toList, "This is a test.".toList] := by
  decide

/-- C4, amended: with overlap = 0 the slice s[-0:] is the entire previous
initial chunk, so each chunk at index j + 1 gets the whole trimmed previous
initial chunk prepended followed by a single space, unless it already
starts with it; the chunk at index 0 is unchanged. -/
theorem zero_overlap_full_prefix (cs : Nat) (text : Str) (init out : List Str)
    (hinit : initialChunks text cs = some init)
    (hout : split_text_smart (some text) cs 0 = some out) :
    out.length = init.length ∧
    out.get? 0 = init.get? 0 ∧
    ∀ (j : Nat) (pc c : Str), init.get? j = some pc → init.get? (j + 1) = some c →
      out.get? (j + 1) = some
        (if (pyStrip pc).isPrefixOf c then c
         else pyStrip (pyStrip pc ++ [' '] ++ c)) := by
  have h := split_stitch_general cs 0 text init out hinit hout
  refine ⟨h.1, h.2.1, ?_⟩
  intro j pc c h1 h2
  have h3 := h.2.2 j pc c h1 h2
  rw [pySliceNegFrom_zero pc] at h3
  exact h3

theorem zero_overlap_full_prefix_witness :
    (["Hello world.".toList, "Hello world. This is a test.".toList] : List Str).get? (0 + 1) =
      some
        (if (pyStrip "Hello world.".toList).isPrefixOf "This is a test.".toList
         then "This is a test.".toList
         else pyStrip (pyStrip "Hello world.".toList ++ [' '] ++ "This is a test.".toList)) := by
  have h := zero_overlap_full_prefix 15 "Hello world. This is a test.".toList
      ["Hello world.".toList, "This is a test.".toList]
      ["Hello world.".toList, "Hello world. This is a test.".toList]
      (by decide) (by decide)
  exact h.2.2 0 "Hello world.".toList "This is a test.".toList (by decide) (by decide)

/-- C5: an empty string, and an absent (None) text, both produce the empty
chunk sequence without error. -/
theorem empty_input_yields_empty (cs ov : Nat) :
    split_text_smart none cs ov = some [] ∧
    split_text_smart (some []) cs ov = some [] :=
  ⟨rfl, rfl⟩

/-- C6: the concrete scenario split("Hello world. This is a test.", 15, 5)
returns exactly two chunks, and the second chunk begins with the trimmed
last 5 characters of the first initial chunk. -/
theorem concrete_scenario_two_chunks :
    initialChunks "Hello world. This is a test.".toList 15 =
      some ["Hello world.".toList, "This is a test.".toList] ∧
    split_text_smart (some "Hello world. This is a test.".toList) 15 5 =
      some ["Hello world.".toList, "orld. This is a test.".toList] ∧
    (pyStrip (tailChars "Hello world.".toList 5)).isPrefixOf
      "orld. This is a test.".toList = true := by
  decide

theorem extract_text_go (pages : List Str) :
    ∀ acc : Str, pages.foldl (fun a p => a ++ p ++ ['\n']) acc
      = acc ++ (pages.map (fun p => p ++ ['\n'])).flatten := by
  induction pages with
  | nil =>
    intro acc
    simp
  | cons p ps ih =>
    intro acc
    rw [List.foldl_cons, ih (acc ++ p ++ ['\n'])]
    simp [List.append_assoc]

/-- C7: extract_text returns the concatenation, in page order, of each page
text with a newline appended after every page, including the last. -/
theorem extract_text_concat (pages : List Str) :
    extract_text pages = (pages.map (fun page => page ++ ['\n'])).flatten := by
  have h := extract_text_go pages []
  simpa [extract_text] using h

/-- C8: if any stage of the pipeline fails, process_pdf_and_store_in_chroma
returns the failure indicator (none, none); no error escapes, and on success
it returns the processor and the collection. -/
theorem orchestrator_error_containment {P E C U Err : Type} (mk : Except Err P)
    (gen : P → Except Err E) (coll : Except Err C)
    (ups : C → E → P → Except Err U) :
    (∀ e : Err, runPipeline mk gen coll ups = .error e →
      process_pdf_and_store_in_chroma mk gen coll ups = (none, none)) ∧
    (∀ (p : P) (c : C), runPipeline mk gen coll ups = .ok (p, c) →
      process_pdf_and_store_in_chroma mk gen coll ups = (some p, some c)) := by
  constructor
  · intro e he
    unfold process_pdf_and_store_in_chroma
    rw [he]
  · intro p c hok
    unfold process_pdf_and_store_in_chroma
    rw [hok]

theorem orchestrator_error_containment_witness :
    process_pdf_and_store_in_chroma (Except.error 0 : Except Nat Nat)
      (fun p : Nat => Except.ok p) (Except.ok 0 : Except Nat Nat)
      (fun _ _ _ => (Except.ok 0 : Except Nat Nat)) = (none, none) :=
  (orchestrator_error_containment (Except.error 0) (fun p : Nat => Except.ok p)
    (Except.ok 0) (fun _ _ _ => (Except.ok 0 : Except Nat Nat))).1 0 rfl

/-- C9: every chunk returned by split_text_smart has no leading or trailing
whitespace: it equals its own trim. -/
theorem output_chunks_trimmed (text : Option Str) (cs ov : Nat) (out : List Str)
    (h : split_text_smart text cs ov = some out) : ∀ c ∈ out, pyStrip c = c := by
  cases text with
  | none =>
    simp only [split_text_smart, Option.some.injEq] at h
    rw [← h]
    simp
  | some t =>
    simp only [split_text_smart] at h
    by_cases ht : t = []
    · rw [if_pos ht] at h
      simp only [Option.some.injEq] at h
      rw [← h]
      simp
    · rw [if_neg ht] at h
      cases hI : initialChunks t cs with
      | none =>
        rw [hI] at h
        simp at h
      | some init =>
        rw [hI] at h
        simp only [Option.map_some', Option.some.injEq] at h
        intro c hc
        rw [← h] at hc
        cases init with
        | nil => simp [addOverlaps] at hc
        | cons x xs =>
          rw [addOverlaps] at hc
          rcases List.mem_cons.mp hc with h1 | h1
          · rw [h1]
            exact pyStrip_idem x
          · rcases addOverlapsAux_mem ov xs x c h1 with ⟨x0, hx0⟩
            rw [hx0]
            exact pyStrip_idem x0

theorem output_chunks_trimmed_witness : pyStrip ['a'] = ['a'] :=
  output_chunks_trimmed (some ['a']) 5 0 [['a']] (by decide) ['a'] (by simp)

/-- C10: for any text that is non-empty after trimming, calling
split_text_smart with chunk_size 0 raises (the fixed-width slicing iterates
range with step 0), modelled as the none result. -/
theorem zero_chunk_size_fails (text : Str) (ov : Nat) (h : pyStrip text ≠ []) :
    split_text_smart (some text) 0 ov = none := by
  have ht : text ≠ [] := by
    intro e
    rw [e] at h
    exact h rfl
  simp only [split_text_smart]
  rw [if_neg ht]
  rcases splitSentences_head_ne (pyStrip text) h with ⟨a, as, hsp, ha⟩
  unfold initialChunks
  rw [hsp, List.foldlM_cons]
  have h1 : packSentence 0 ([] : List Str) [] a = none := packSentence_zero_none [] [] a ha
  simp [h1]

theorem zero_chunk_size_fails_witness :
    split_text_smart (some ['a']) 0 0 = none :=
  zero_chunk_size_fails ['a'] 0 (by decide)

end Pdfmind
